import Mathlib

/-!
Verification of the chunked parallel transcription pipeline of pt-cli.

This file is a shallow embedding of the pipeline code in src/lib/srt.ts and
src/lib/transcription.ts. IEEE double values of the source are modelled as
exact rationals. The two external tools (ffprobe or ffmpeg and the remote
recognition and formatting services) are abstracted by explicit outcome
parameters, and filesystem effects by an explicit workspace state.
-/

/-- Whitespace characters relevant to the JS String.prototype.trim calls in
the sources (space, tab, newline, carriage return). -/
def isJsWhitespace (c : Char) : Bool :=
  c = ' ' || c = '\t' || c = '\n' || c = '\r'

/-- Model of JS String.prototype.trim, used by segment.text.trim() in srt.ts:
strip whitespace from both ends. -/
def jsTrim (s : String) : String :=
  String.mk (((s.data.dropWhile isJsWhitespace).reverse.dropWhile isJsWhitespace).reverse)

/-- JS Math.trunc: the integer part, rounding toward zero. -/
def jsTrunc (x : ℚ) : Int := if 0 ≤ x then ⌊x⌋ else ⌈x⌉

/-- The JS remainder operator a % b (sign follows the dividend), as used by
formatSrtTime in srt.ts. -/
def jsMod (a b : ℚ) : ℚ := a - b * (jsTrunc (a / b) : ℚ)

/-- JS Math.round: round half toward positive infinity, floor (x + 1/2). -/
def jsRound (x : ℚ) : Int := ⌊x + 1 / 2⌋

/-- JS String.prototype.padStart(len, c): left-pad with c up to length len;
strings already at least len long are returned unchanged. -/
def padStart (s : String) (len : Nat) (c : Char) : String :=
  if len ≤ s.length then s else String.mk (List.replicate (len - s.length) c) ++ s

/-- srt.ts formatSrtTime: convert seconds to the SRT time stamp. Hours,
minutes and whole seconds are floored, milliseconds are rounded, and each
field is zero-padded with padStart (2, 2, 2 and 3 respectively). -/
def formatSrtTime (seconds : ℚ) : String :=
  let hours : Int := ⌊seconds / 3600⌋
  let minutes : Int := ⌊jsMod seconds 3600 / 60⌋
  let secs : Int := ⌊jsMod seconds 60⌋
  let millis : Int := jsRound (jsMod seconds 1 * 1000)
  padStart (toString hours) 2 '0' ++ ":" ++ padStart (toString minutes) 2 '0' ++ ":" ++
    padStart (toString secs) 2 '0' ++ "," ++ padStart (toString millis) 3 '0'

/-- The fields of a Whisper verbose response segment used by the pipeline
(src/lib/types.ts WhisperSegment): chunk-local start and end time, and text. -/
structure WhisperSegment where
  start : ℚ
  «end» : ℚ
  text : String
  deriving DecidableEq

/-- src/lib/types.ts SrtEntry: 1-based subtitle index, global times, text. -/
structure SrtEntry where
  index : Int
  startTime : ℚ
  endTime : ℚ
  text : String
  deriving DecidableEq

/-- srt.ts convertSegmentsToSrtEntries: map each segment to an entry with the
chunk time offset chunkIndex * chunkDuration added to both times, indices
counted from startIndex, and the text trimmed. -/
def convertSegmentsToSrtEntries (segments : List WhisperSegment) (chunkIndex : Nat)
    (chunkDuration : ℚ) (startIndex : Int) : List SrtEntry :=
  let timeOffset : ℚ := (chunkIndex : ℚ) * chunkDuration
  segments.mapIdx fun i segment =>
    { index := startIndex + (i : Int), startTime := segment.start + timeOffset,
      endTime := segment.«end» + timeOffset, text := jsTrim segment.text }

/-- srt.ts entriesToSrtString: one block per entry (index, time range, text,
trailing newline), blocks joined with newlines. -/
def entriesToSrtString (entries : List SrtEntry) : String :=
  String.intercalate "\n" (entries.map fun entry =>
    toString entry.index ++ "\n" ++ formatSrtTime entry.startTime ++ " --> " ++
      formatSrtTime entry.endTime ++ "\n" ++ entry.text ++ "\n")

/-- transcription.ts ChunkResult: result of transcribing one chunk. -/
structure ChunkResult where
  index : Nat
  text : String
  srtEntries : Option (List SrtEntry)
  deriving DecidableEq

/-- src/lib/types.ts TranscriptionResult: plain text plus optional SRT. -/
structure TranscriptionResult where
  text : String
  srt : Option String
  deriving DecidableEq

/-- Boolean order corresponding to the sort comparator
(a, b) => a.index - b.index used on chunk results. -/
def chunkLe (a b : ChunkResult) : Bool := a.index ≤ b.index

/-- Step 3 of transcribeFromPath: results.sort((a, b) => a.index - b.index). -/
def sortResults (results : List ChunkResult) : List ChunkResult :=
  results.mergeSort chunkLe

/-- One iteration of the renumbering loop of transcribeFromPath: push the
entry with index := globalIndex and increment globalIndex. -/
def pushRenumbered (st : List SrtEntry × Int) (entry : SrtEntry) : List SrtEntry × Int :=
  (st.1 ++ [{ entry with index := st.2 }], st.2 + 1)

/-- The srtEntries of a chunk result, empty when absent, as traversed by the
renumbering loop. -/
def chunkEntriesOf (r : ChunkResult) : List SrtEntry := r.srtEntries.getD []

/-- The renumbering loop of transcribeFromPath: traverse the sorted results,
pushing every entry of every chunk with a fresh global index starting at 1. -/
def renumberEntries (sorted : List ChunkResult) : List SrtEntry :=
  (sorted.foldl (fun st r => (chunkEntriesOf r).foldl pushRenumbered st)
    (([] : List SrtEntry), (1 : Int))).1

/-- Step 3 of transcribeFromPath: sort the chunk results by index, join the
text fields with a single space, and when SRT output is requested renumber
the entries globally and render them. -/
def assemble (needSrt : Bool) (results : List ChunkResult) : TranscriptionResult :=
  let sorted := sortResults results
  { text := String.intercalate " " (sorted.map ChunkResult.text),
    srt := if needSrt then some (entriesToSrtString (renumberEntries sorted)) else none }

/-- A planned chunk: 0-based index, start offset i * chunkDuration, and the
requested length chunkDuration (the ffmpeg arguments -ss start -t
chunkDuration of the split loop). -/
structure ChunkDescriptor where
  index : Nat
  startOffsetSeconds : ℚ
  durationSeconds : ℚ
  deriving DecidableEq

/-- totalChunks = Math.ceil(totalDuration / chunkDuration) in
transcribeFromPath. A non-positive value makes the 0-based split loop run
zero times, which Int.toNat models by clamping to 0 in buildPlan. -/
def totalChunksOf (totalDuration chunkDuration : ℚ) : Int :=
  ⌈totalDuration / chunkDuration⌉

/-- The split loop of transcribeFromPath: for i in 0..totalChunks-1, chunk i
starts at i * chunkDuration with requested length chunkDuration. -/
def buildPlan (totalDuration chunkDuration : ℚ) : List ChunkDescriptor :=
  (List.range (totalChunksOf totalDuration chunkDuration).toNat).map fun i =>
    { index := i, startOffsetSeconds := (i : ℚ) * chunkDuration,
      durationSeconds := chunkDuration }

/-- The duration probe parsed with parseFloat: none models NaN (unparsable
ffprobe output). Math.ceil(NaN / d) is NaN and the split loop runs zero
times, so the plan is empty. -/
def planChunks (probedDuration : Option ℚ) (chunkDuration : ℚ) : List ChunkDescriptor :=
  match probedDuration with
  | none => []
  | some totalDuration => buildPlan totalDuration chunkDuration

/-- The effective time range extracted for a chunk ends at the requested end
or at the end of the audio, whichever comes first (ffmpeg clips -t at the end
of the input). -/
def chunkEnd (totalDuration : ℚ) (c : ChunkDescriptor) : ℚ :=
  min (c.startOffsetSeconds + c.durationSeconds) totalDuration

/-- Error thrown by a failed remote transcription call. -/
structure TranscriptionError where
  message : String
  deriving DecidableEq

deriving instance DecidableEq for Except

/-- Error thrown by a failed formatting (chat completion) call. -/
structure FormatError where
  message : String
  deriving DecidableEq

/-- transcription.ts formatWithAI. The chat completion call is abstracted by
its outcome: a thrown error is caught and the raw text returned; a missing or
empty message content also falls back to the raw text, mirroring
(response.choices[0]?.message?.content || text). -/
def formatWithAI (outcome : Except FormatError (Option String)) (text : String) : String :=
  match outcome with
  | Except.error _ => text
  | Except.ok none => text
  | Except.ok (some content) => if content = "" then text else content

/-- transcription.ts isChinese. -/
def isChinese (lang : String) : Bool := lang = "zh" || lang = "chinese"

/-- transcription.ts getLanguagePrompt: a Mandarin hint sentence for Chinese,
undefined otherwise. -/
def getLanguagePrompt (lang : String) : Option String :=
  if isChinese lang then some "以下是普通话的句子。" else none

/-- The (language, prompt) parameters passed by transcribeChunk to
client.audio.transcriptions.create: both undefined in auto mode, otherwise
the configured language and the language prompt. -/
def transcriptionRequestParams (language : String) : Option String × Option String :=
  let isAutoMode := language = "auto"
  (if isAutoMode then none else some language,
   if isAutoMode then none else getLanguagePrompt language)

/-- Promise.all over the per-chunk outcomes: resolves with all values when
every chunk succeeds, rejects when any chunk transcription fails. -/
def promiseAll {ε α : Type} : List (Except ε α) → Except ε (List α)
  | [] => Except.ok []
  | Except.error e :: _ => Except.error e
  | Except.ok a :: rest => (promiseAll rest).map (fun l => a :: l)

/-- The remote outcomes one chunk can observe in the text-only flow: the
transcription call, then the formatting call (content may be absent). -/
structure ChunkOracle where
  transcription : Except TranscriptionError String
  formatting : Except FormatError (Option String)

/-- transcribeChunk, text-only flow: a failed transcription call rejects the
chunk; otherwise the text runs through formatWithAI, whose failures are
swallowed inside formatWithAI itself. -/
def transcribeChunkText (index : Nat) (oracle : ChunkOracle) :
    Except TranscriptionError ChunkResult :=
  match oracle.transcription with
  | Except.error e => Except.error e
  | Except.ok transcription =>
      Except.ok { index := index, text := formatWithAI oracle.formatting transcription,
                  srtEntries := none }

/-- The fields of the Whisper verbose response used by the SRT flow. -/
structure WhisperVerboseResponse where
  text : String
  segments : List WhisperSegment
  deriving DecidableEq

/-- transcribeChunk, SRT flow: the verbose response carries full text and
segments; segments are converted with the chunk offset and the temporary
start index 1 (renumbered later during assembly). -/
def transcribeChunkSrt (index : Nat) (chunkDuration : ℚ)
    (outcome : Except TranscriptionError WhisperVerboseResponse) :
    Except TranscriptionError ChunkResult :=
  match outcome with
  | Except.error e => Except.error e
  | Except.ok response =>
      Except.ok { index := index, text := response.text,
                  srtEntries := some
                    (convertSegmentsToSrtEntries response.segments index chunkDuration 1) }

/-- The scheduler call sites chunkPaths.map((path, i) => transcribeChunk(path, i))
for the text flow: one transcribeChunkText per oracle, indices counted from i. -/
def scheduleText : List ChunkOracle → Nat → List (Except TranscriptionError ChunkResult)
  | [], _ => []
  | o :: rest, i => transcribeChunkText i o :: scheduleText rest (i + 1)

/-- transcribeFromPath with the externals abstracted: plan the chunks from
the probed duration, run one remote call per planned chunk under Promise.all,
then sort and assemble. -/
def transcribeFromPath (needSrt : Bool) (probedDuration : Option ℚ) (chunkDuration : ℚ)
    (chunkOutcome : Nat → Except TranscriptionError ChunkResult) :
    Except TranscriptionError TranscriptionResult :=
  let plan := planChunks probedDuration chunkDuration
  (promiseAll (plan.map fun c => chunkOutcome c.index)).map (assemble needSrt)

/-- Whether the scoped temporary directory of one run exists. -/
structure Workspace where
  tempDirExists : Bool
  deriving DecidableEq

/-- The finally block of transcribeAudioFile: existsSync check then rm -rf. -/
def cleanupWorkspace (w : Workspace) : Workspace :=
  if w.tempDirExists then { tempDirExists := false } else w

/-- transcribeAudioFile: create the scoped directory, run transcribeFromPath,
and run the finally-block cleanup on the success path and on the error path
alike; the caller sees the pipeline value or the rethrown error. -/
def transcribeAudioFile (needSrt : Bool) (probedDuration : Option ℚ) (chunkDuration : ℚ)
    (chunkOutcome : Nat → Except TranscriptionError ChunkResult) :
    Except TranscriptionError TranscriptionResult × Workspace :=
  let created : Workspace := { tempDirExists := true }
  match transcribeFromPath needSrt probedDuration chunkDuration chunkOutcome with
  | Except.ok result => (Except.ok result, cleanupWorkspace created)
  | Except.error e => (Except.error e, cleanupWorkspace created)

/-- The raw (unformatted) transcription text a chunk oracle returned, empty
for a failed call. -/
def rawTranscriptionOf (oracle : ChunkOracle) : String :=
  match oracle.transcription with
  | Except.ok raw => raw
  | Except.error _ => ""

/-- The text-only pipeline from the scheduler on: transcribe every chunk with
bounded concurrency under Promise.all, then assemble without SRT. -/
def runTextPipeline (oracles : List ChunkOracle) : Except TranscriptionError TranscriptionResult :=
  (promiseAll (scheduleText oracles 0)).map (assemble false)

/-! ### Helper lemmas -/

theorem mapIdx_map_proj {γ : Type} (l : List WhisperSegment) (f : Nat → WhisperSegment → SrtEntry)
    (g : SrtEntry → γ) (h : WhisperSegment → γ) (hfg : ∀ i s, g (f i s) = h s) :
    (l.mapIdx f).map g = l.map h := by
  rw [List.mapIdx_eq_enum_map, List.map_map]
  conv_rhs => rw [← List.enum_map_snd l, List.map_map]
  exact List.map_congr_left fun p _ => hfg p.1 p.2

theorem buildPlan_eq_nil_of_ceil_nonpos {T d : ℚ} (h : totalChunksOf T d ≤ 0) :
    buildPlan T d = [] := by
  unfold buildPlan
  rw [Int.toNat_of_nonpos h]
  rfl

theorem transcribeFromPath_of_empty_plan (needSrt : Bool) (probed : Option ℚ) (d : ℚ)
    (chunkOutcome : Nat → Except TranscriptionError ChunkResult)
    (h : planChunks probed d = []) :
    transcribeFromPath needSrt probed d chunkOutcome =
      Except.ok { text := "", srt := if needSrt then some "" else none } := by
  unfold transcribeFromPath
  rw [h]
  cases needSrt <;>
    simp [promiseAll, Except.map, assemble, sortResults, renumberEntries, chunkEntriesOf,
      entriesToSrtString, String.intercalate]

theorem promiseAll_isError {ε α : Type} (l : List (Except ε α))
    (h : ∃ x ∈ l, ∃ e, x = Except.error e) : ∃ e, promiseAll l = Except.error e := by
  induction l with
  | nil => simp at h
  | cons x rest ih =>
    obtain ⟨y, hy, e, he⟩ := h
    cases x with
    | error e0 => exact ⟨e0, rfl⟩
    | ok a =>
      rcases List.mem_cons.mp hy with h1 | h1
      · rw [h1] at he
        exact absurd he (by simp)
      · obtain ⟨e1, h2⟩ := ih ⟨y, h1, e, he⟩
        exact ⟨e1, by simp [promiseAll, h2, Except.map]⟩

/-! ### Claims -/

unseal Rat.mul Rat.add Rat.sub Rat.inv in
/-- Claim C5: for every segment of every chunk, the global subtitle times equal
the chunk-local times plus the chunk offset chunkIndex * chunkDuration; in
particular a segment with chunk-local start 10.5 in chunk index 2 with
chunkDuration 300 gets global start 610.5 (10.5 = 21/2, 610.5 = 1221/2). -/
theorem convertSegments_time_shift (segments : List WhisperSegment) (chunkIndex : Nat)
    (chunkDuration : ℚ) (startIndex : Int) :
    (convertSegmentsToSrtEntries segments chunkIndex chunkDuration startIndex).map
        SrtEntry.startTime =
      segments.map (fun s => s.start + (chunkIndex : ℚ) * chunkDuration) ∧
    (convertSegmentsToSrtEntries segments chunkIndex chunkDuration startIndex).map
        SrtEntry.endTime =
      segments.map (fun s => s.«end» + (chunkIndex : ℚ) * chunkDuration) ∧
    (convertSegmentsToSrtEntries [{ start := mkRat 21 2, «end» := mkRat 23 2, text := "t" }]
        2 300 1).map SrtEntry.startTime = [mkRat 1221 2] := by
  refine ⟨?_, ?_, ?_⟩
  · exact mapIdx_map_proj segments _ _ _ (fun i s => rfl)
  · exact mapIdx_map_proj segments _ _ _ (fun i s => rfl)
  · decide

theorem totalChunksOf_nonpos {T d : ℚ}
    (h : (d < 0 ∧ 0 < T) ∨ (T ≤ 0 ∧ 0 < d) ∨ (T = 0 ∧ d < 0)) :
    totalChunksOf T d ≤ 0 := by
  have hdiv : T / d ≤ 0 := by
    rcases h with ⟨hd, hT⟩ | ⟨hT, hd⟩ | ⟨hT, hd⟩
    · exact le_of_lt (div_neg_of_pos_of_neg hT hd)
    · exact div_nonpos_iff.mpr (Or.inr ⟨hT, hd.le⟩)
    · simp [hT]
  unfold totalChunksOf
  exact Int.ceil_le.mpr (by exact_mod_cast hdiv)

unseal List.merge List.mergeSort Rat.mul Rat.add Rat.sub Rat.inv in
/-- Claim C8 counterexample: with totalDuration 650 and chunkDuration -5 the
pipeline raises no error at all: the plan is empty, no split or transcription
work is attempted, and the run returns an ok result with empty text, so no
ConfigError is ever surfaced. -/
theorem invalid_config_counterexample :
    planChunks (some 650) (-5) = [] ∧
    transcribeFromPath false (some 650) (-5) (fun _ => Except.error { message := "unused" }) =
      Except.ok { text := "", srt := none } := by
  constructor <;> decide

/-- Claim C8 amended: the code contains no ConfigError path. For chunkDuration
less than 0 with positive totalDuration, for totalDuration at most 0 with
positive chunkDuration, and for totalDuration 0 with negative chunkDuration,
the run performs zero split commands and zero transcription requests and
returns an ok result with empty text (and an empty subtitle string when
requested). A zero chunkDuration with positive totalDuration is not modelled:
there the JS division yields Infinity and the split loop never terminates. -/
theorem invalid_config_amended (needSrt : Bool) (T d : ℚ)
    (chunkOutcome : Nat → Except TranscriptionError ChunkResult)
    (h : (d < 0 ∧ 0 < T) ∨ (T ≤ 0 ∧ 0 < d) ∨ (T = 0 ∧ d < 0)) :
    planChunks (some T) d = [] ∧
    transcribeFromPath needSrt (some T) d chunkOutcome =
      Except.ok { text := "", srt := if needSrt then some "" else none } := by
  have hplan : planChunks (some T) d = [] :=
    buildPlan_eq_nil_of_ceil_nonpos (totalChunksOf_nonpos h)
  exact ⟨hplan, transcribeFromPath_of_empty_plan _ _ _ _ hplan⟩

/-- Witness for the amended C8 claim at totalDuration 650, chunkDuration -5. -/
theorem invalid_config_amended_witness :
    planChunks (some (650 : ℚ)) (-5) = [] ∧
    transcribeFromPath true (some (650 : ℚ)) (-5)
        (fun _ => Except.error { message := "w" }) =
      Except.ok { text := "", srt := some "" } := by
  have h := invalid_config_amended true 650 (-5) (fun _ => Except.error { message := "w" })
    (Or.inl ⟨by norm_num, by norm_num⟩)
  simpa using h

/-- Claim C10: when the probed duration is unparsable (NaN, modelled as none)
or not positive, the pipeline does not fail: the plan is empty, so zero split
commands and zero transcription requests happen, and the run returns a result
with empty text (and an empty subtitle string when requested). -/
theorem unparsable_duration_graceful (needSrt : Bool) (d : ℚ) (probed : Option ℚ)
    (chunkOutcome : Nat → Except TranscriptionError ChunkResult)
    (hd : 0 < d) (h : probed = none ∨ ∃ T, probed = some T ∧ T ≤ 0) :
    planChunks probed d = [] ∧
    transcribeFromPath needSrt probed d chunkOutcome =
      Except.ok { text := "", srt := if needSrt then some "" else none } := by
  have hplan : planChunks probed d = [] := by
    rcases h with h | ⟨T, hT, hle⟩
    · rw [h]
      rfl
    · rw [hT]
      exact buildPlan_eq_nil_of_ceil_nonpos (totalChunksOf_nonpos (Or.inr (Or.inl ⟨hle, hd⟩)))
  exact ⟨hplan, transcribeFromPath_of_empty_plan _ _ _ _ hplan⟩

/-- Witness for C10 at an unparsable probe with the default chunkDuration 300. -/
theorem unparsable_duration_graceful_witness :
    planChunks none (300 : ℚ) = [] ∧
    transcribeFromPath true none (300 : ℚ) (fun _ => Except.error { message := "w" }) =
      Except.ok { text := "", srt := some "" } := by
  have h := unparsable_duration_graceful true 300 none
    (fun _ => Except.error { message := "w" }) (by norm_num) (Or.inl rfl)
  simpa using h

/-- Claim C3: the scoped workspace does not exist after the run on any exit
path, and when any chunk transcription call fails the whole run fails with
the error: the caller receives no partial transcript. -/
theorem chunk_failure_fatal_and_cleanup (needSrt : Bool) (probed : Option ℚ) (d : ℚ)
    (chunkOutcome : Nat → Except TranscriptionError ChunkResult) :
    (transcribeAudioFile needSrt probed d chunkOutcome).2.tempDirExists = false ∧
    ((∃ c ∈ planChunks probed d, ∃ e, chunkOutcome c.index = Except.error e) →
      ∃ e, (transcribeAudioFile needSrt probed d chunkOutcome).1 = Except.error e) := by
  constructor
  · unfold transcribeAudioFile
    cases transcribeFromPath needSrt probed d chunkOutcome <;> rfl
  · intro h
    obtain ⟨c, hc, e, he⟩ := h
    obtain ⟨e1, h1⟩ := promiseAll_isError
      ((planChunks probed d).map fun c => chunkOutcome c.index)
      ⟨chunkOutcome c.index, List.mem_map_of_mem _ hc, e, he⟩
    refine ⟨e1, ?_⟩
    simp only [transcribeAudioFile, transcribeFromPath, h1, Except.map]

unseal List.merge List.mergeSort Rat.mul Rat.add Rat.sub Rat.inv in
/-- Witness for C3: a failing chunk oracle at totalDuration 650, chunkDuration
300 yields a failed run with the workspace cleaned up. -/
theorem chunk_failure_fatal_and_cleanup_witness :
    (transcribeAudioFile false (some 650) 300
        (fun _ => Except.error { message := "boom" })).2.tempDirExists = false ∧
    ∃ e, (transcribeAudioFile false (some 650) 300
        (fun _ => Except.error { message := "boom" })).1 = Except.error e := by
  have h := chunk_failure_fatal_and_cleanup false (some 650) 300
    (fun _ => Except.error { message := "boom" })
  exact ⟨h.1, h.2 ⟨{ index := 0, startOffsetSeconds := 0, durationSeconds := 300 },
    by decide, { message := "boom" }, rfl⟩⟩

/-- Claim C9 counterexample: the explicit language code en is passed to the
service, but no disambiguation hint string accompanies it, contrary to the
claim that every explicit language code comes with a hint. -/
theorem language_hint_counterexample :
    "en" ≠ "auto" ∧ (transcriptionRequestParams "en").1 = some "en" ∧
    (transcriptionRequestParams "en").2 = none := by
  exact ⟨by decide, rfl, rfl⟩

/-- Claim C9 amended: in auto mode neither a language nor a prompt is passed;
an explicit language code is passed as the language parameter, and a hint
string accompanies it exactly when the language is a Chinese variant (zh or
chinese, which are treated as equivalent); other explicit codes get no hint. -/
theorem language_routing_amended (lang : String) (h : lang ≠ "auto") :
    transcriptionRequestParams "auto" = (none, none) ∧
    (transcriptionRequestParams lang).1 = some lang ∧
    (transcriptionRequestParams lang).2 = getLanguagePrompt lang ∧
    (isChinese lang = true → (transcriptionRequestParams lang).2 = some "以下是普通话的句子。") ∧
    (isChinese lang = false → (transcriptionRequestParams lang).2 = none) ∧
    isChinese "zh" = true ∧ isChinese "chinese" = true ∧
    getLanguagePrompt "zh" = getLanguagePrompt "chinese" := by
  refine ⟨rfl, ?_, ?_, ?_, ?_, by decide, by decide, by decide⟩
  · simp [transcriptionRequestParams, h]
  · simp [transcriptionRequestParams, h]
  · intro hc
    simp [transcriptionRequestParams, h, getLanguagePrompt, hc]
  · intro hc
    simp [transcriptionRequestParams, h, getLanguagePrompt, hc]

/-- Witness for the amended C9 claim at the explicit language en. -/
theorem language_routing_amended_witness :
    transcriptionRequestParams "auto" = (none, none) ∧
    (transcriptionRequestParams "en").1 = some "en" ∧
    (transcriptionRequestParams "en").2 = getLanguagePrompt "en" ∧
    (isChinese "en" = true → (transcriptionRequestParams "en").2 = some "以下是普通话的句子。") ∧
    (isChinese "en" = false → (transcriptionRequestParams "en").2 = none) ∧
    isChinese "zh" = true ∧ isChinese "chinese" = true ∧
    getLanguagePrompt "zh" = getLanguagePrompt "chinese" :=
  language_routing_amended "en" (by decide)

set_option maxRecDepth 4000 in
theorem padStart_intToString_len2 :
    ∀ n < 100, (padStart (toString (Int.ofNat n)) 2 '0').length = 2 := by decide

set_option maxRecDepth 4000 in
theorem padStart_intToString_len3 :
    ∀ n < 1000, (padStart (toString (Int.ofNat n)) 3 '0').length = 3 := by decide

theorem padStart_len2_of_bounds {h : Int} (h0 : 0 ≤ h) (h99 : h ≤ 99) :
    (padStart (toString h) 2 '0').length = 2 := by
  obtain ⟨n, rfl⟩ := Int.eq_ofNat_of_zero_le h0
  exact padStart_intToString_len2 n (by omega)

theorem padStart_len3_of_bounds {h : Int} (h0 : 0 ≤ h) (h999 : h ≤ 999) :
    (padStart (toString h) 3 '0').length = 3 := by
  obtain ⟨n, rfl⟩ := Int.eq_ofNat_of_zero_le h0
  exact padStart_intToString_len3 n (by omega)

theorem jsMod_nonneg_lt (a b : ℚ) (ha : 0 ≤ a) (hb : 0 < b) :
    0 ≤ jsMod a b ∧ jsMod a b < b := by
  have hdiv : (0 : ℚ) ≤ a / b := div_nonneg ha hb.le
  have htr : jsTrunc (a / b) = ⌊a / b⌋ := by
    unfold jsTrunc
    rw [if_pos hdiv]
  unfold jsMod
  rw [htr]
  constructor
  · have h1 : ((⌊a / b⌋ : ℚ)) ≤ a / b := Int.floor_le _
    have h2 : ((⌊a / b⌋ : ℚ)) * b ≤ a / b * b := mul_le_mul_of_nonneg_right h1 hb.le
    rw [div_mul_cancel₀ a (ne_of_gt hb)] at h2
    linarith
  · have h1 : a / b < (⌊a / b⌋ : ℚ) + 1 := Int.lt_floor_add_one _
    have h2 : a / b * b < ((⌊a / b⌋ : ℚ) + 1) * b := mul_lt_mul_of_pos_right h1 hb
    rw [div_mul_cancel₀ a (ne_of_gt hb)] at h2
    linarith

unseal Rat.mul Rat.add Rat.sub Rat.inv in
/-- Claim C6 counterexample: at 5.9996 seconds the rounded milliseconds reach
1000 and the formatter emits a four-digit milliseconds field with no carry.
The output is 00:00:05,1000 (13 characters), which is not of the shape
HH:MM:SS,mmm with exactly three millisecond digits and is also not the
carried form 00:00:06,000 the claim offers as the alternative. -/
theorem formatSrtTime_shape_counterexample :
    formatSrtTime (mkRat 59996 10000) = "00:00:05,1000" ∧
    (formatSrtTime (mkRat 59996 10000)).length = 13 ∧
    formatSrtTime (mkRat 59996 10000) ≠ "00:00:06,000" := by
  refine ⟨by decide, by decide, by decide⟩

unseal Rat.mul Rat.add Rat.sub Rat.inv in
/-- Claim C6 amended: for every non-negative seconds value whose hour count
fits in two digits and whose rounded milliseconds stay at most 999, the
formatter returns the 12-character string HH:MM:SS,mmm built from floored
hours, minutes and whole seconds and rounded milliseconds, each field
zero-padded; 125.3 seconds formats as 00:02:05,300 and 3661.999 seconds as
01:01:01,999. When the milliseconds round to 1000 the formatter instead
emits a four-digit milliseconds field without carrying (see the
counterexample). -/
theorem formatSrtTime_amended (s : ℚ) (hs : 0 ≤ s)
    (hmillis : jsRound (jsMod s 1 * 1000) ≤ 999)
    (hhours : ⌊s / 3600⌋ ≤ 99) :
    (formatSrtTime s).length = 12 ∧
    formatSrtTime s =
      padStart (toString ⌊s / 3600⌋) 2 '0' ++ ":" ++
        padStart (toString ⌊jsMod s 3600 / 60⌋) 2 '0' ++ ":" ++
        padStart (toString ⌊jsMod s 60⌋) 2 '0' ++ "," ++
        padStart (toString (jsRound (jsMod s 1 * 1000))) 3 '0' ∧
    formatSrtTime (mkRat 1253 10) = "00:02:05,300" ∧
    formatSrtTime (mkRat 3661999 1000) = "01:01:01,999" := by
  have hhour0 : (0 : Int) ≤ ⌊s / 3600⌋ :=
    Int.le_floor.mpr (by exact_mod_cast div_nonneg hs (by norm_num))
  have hm3600 := jsMod_nonneg_lt s 3600 hs (by norm_num)
  have hmin0 : (0 : Int) ≤ ⌊jsMod s 3600 / 60⌋ :=
    Int.le_floor.mpr (by exact_mod_cast div_nonneg hm3600.1 (by norm_num))
  have hmin59 : ⌊jsMod s 3600 / 60⌋ ≤ 59 := by
    have : ⌊jsMod s 3600 / 60⌋ < 60 := by
      rw [Int.floor_lt]
      rw [div_lt_iff₀ (by norm_num : (0:ℚ) < 60)]
      exact_mod_cast (by linarith [hm3600.2] : jsMod s 3600 < (60 : ℚ) * 60)
    omega
  have hm60 := jsMod_nonneg_lt s 60 hs (by norm_num)
  have hsec0 : (0 : Int) ≤ ⌊jsMod s 60⌋ := Int.le_floor.mpr (by exact_mod_cast hm60.1)
  have hsec59 : ⌊jsMod s 60⌋ ≤ 59 := by
    have : ⌊jsMod s 60⌋ < 60 := by
      rw [Int.floor_lt]
      exact_mod_cast hm60.2
    omega
  have hm1 := jsMod_nonneg_lt s 1 hs (by norm_num)
  have hms0 : (0 : Int) ≤ jsRound (jsMod s 1 * 1000) := by
    unfold jsRound
    refine Int.le_floor.mpr ?_
    push_cast
    nlinarith [hm1.1]
  have lh := padStart_len2_of_bounds hhour0 hhours
  have lm := padStart_len2_of_bounds hmin0 (le_trans hmin59 (by norm_num))
  have lsec := padStart_len2_of_bounds hsec0 (le_trans hsec59 (by norm_num))
  have lms := padStart_len3_of_bounds hms0 hmillis
  refine ⟨?_, rfl, by decide, by decide⟩
  show (padStart (toString ⌊s / 3600⌋) 2 '0' ++ ":" ++
        padStart (toString ⌊jsMod s 3600 / 60⌋) 2 '0' ++ ":" ++
        padStart (toString ⌊jsMod s 60⌋) 2 '0' ++ "," ++
        padStart (toString (jsRound (jsMod s 1 * 1000))) 3 '0').length = 12
  simp [String.length_append, lh, lm, lsec, lms]
  decide

unseal Rat.mul Rat.add Rat.sub Rat.inv in
/-- Witness for the amended C6 claim at 125.3 seconds. -/
theorem formatSrtTime_amended_witness :
    (0 : ℚ) ≤ mkRat 1253 10 ∧ jsRound (jsMod (mkRat 1253 10) 1 * 1000) ≤ 999 ∧
    ⌊(mkRat 1253 10) / 3600⌋ ≤ 99 ∧ (formatSrtTime (mkRat 1253 10)).length = 12 ∧
    formatSrtTime (mkRat 1253 10) = "00:02:05,300" := by
  have h := formatSrtTime_amended (mkRat 1253 10) (by decide) (by decide) (by decide)
  exact ⟨by decide, by decide, by decide, h.1, h.2.2.1⟩

/-- The chunk results the text flow produces when every transcription call
succeeds, indices counted from i. -/
def chunkListText : List ChunkOracle → Nat → List ChunkResult
  | [], _ => []
  | o :: rest, i =>
      { index := i, text := formatWithAI o.formatting (rawTranscriptionOf o),
        srtEntries := none } :: chunkListText rest (i + 1)

theorem scheduleText_all_ok (oracles : List ChunkOracle) (i : Nat)
    (h : ∀ o ∈ oracles, ∃ raw, o.transcription = Except.ok raw) :
    promiseAll (scheduleText oracles i) = Except.ok (chunkListText oracles i) := by
  induction oracles generalizing i with
  | nil => rfl
  | cons o rest ih =>
    obtain ⟨raw, hraw⟩ := h o (List.mem_cons_self o rest)
    have hrest := fun x hx => h x (List.mem_cons_of_mem o hx)
    simp only [scheduleText, transcribeChunkText, hraw, promiseAll, ih (i + 1) hrest,
      Except.map, chunkListText, rawTranscriptionOf]

theorem chunkListText_index_ge (oracles : List ChunkOracle) (i : Nat) :
    ∀ r ∈ chunkListText oracles i, i ≤ r.index := by
  induction oracles generalizing i with
  | nil => simp [chunkListText]
  | cons o rest ih =>
    intro r hr
    rcases List.mem_cons.mp hr with h | h
    · simp [h]
    · exact le_trans (Nat.le_succ i) (ih (i + 1) r h)

theorem chunkListText_sorted (oracles : List ChunkOracle) (i : Nat) :
    List.Pairwise (fun a b => chunkLe a b = true) (chunkListText oracles i) := by
  induction oracles generalizing i with
  | nil => exact List.Pairwise.nil
  | cons o rest ih =>
    refine List.Pairwise.cons ?_ (ih (i + 1))
    intro r hr
    have hge := chunkListText_index_ge rest (i + 1) r hr
    simp only [chunkLe, decide_eq_true_eq]
    omega

theorem chunkListText_map_text (oracles : List ChunkOracle) (i : Nat) :
    (chunkListText oracles i).map ChunkResult.text =
      oracles.map (fun o => formatWithAI o.formatting (rawTranscriptionOf o)) := by
  induction oracles generalizing i with
  | nil => rfl
  | cons o rest ih => simp [chunkListText, ih (i + 1)]

/-- Claim C7: when every transcription call succeeds, the text run completes
whatever the formatting outcomes are; each chunk contributes exactly
formatWithAI applied to its own formatting outcome and its own raw text, so
other chunks are unaffected by one chunk's formatting failure; and a failed
formatting pass contributes exactly the raw unformatted text. -/
theorem formatting_failure_swallowed (oracles : List ChunkOracle)
    (hok : ∀ o ∈ oracles, ∃ raw, o.transcription = Except.ok raw) :
    runTextPipeline oracles =
      Except.ok
        { text :=
            String.intercalate " "
              (oracles.map fun o => formatWithAI o.formatting (rawTranscriptionOf o)),
          srt := none } ∧
    (∀ (e : FormatError) (raw : String), formatWithAI (Except.error e) raw = raw) := by
  constructor
  · unfold runTextPipeline
    rw [scheduleText_all_ok oracles 0 hok]
    have hsort : sortResults (chunkListText oracles 0) = chunkListText oracles 0 := by
      unfold sortResults
      exact List.mergeSort_of_sorted (chunkListText_sorted oracles 0)
    simp [Except.map, assemble, hsort, chunkListText_map_text]
  · intro e raw
    rfl

/-- Witness for C7: two chunks, the first with a failing formatting pass; the
merged text uses the raw text for the first chunk and the formatted text for
the second. -/
theorem formatting_failure_swallowed_witness :
    runTextPipeline
        [{ transcription := Except.ok "raw one", formatting := Except.error { message := "fail" } },
         { transcription := Except.ok "raw two", formatting := Except.ok (some "Formatted two.") }] =
      Except.ok { text := "raw one Formatted two.", srt := none } ∧
    formatWithAI (Except.error { message := "fail" }) "raw one" = "raw one" := by
  have h := formatting_failure_swallowed
    [{ transcription := Except.ok "raw one", formatting := Except.error { message := "fail" } },
     { transcription := Except.ok "raw two", formatting := Except.ok (some "Formatted two.") }]
    (by
      intro o ho
      rcases List.mem_cons.mp ho with h1 | h1
      · exact ⟨"raw one", by rw [h1]⟩
      · rcases List.mem_cons.mp h1 with h2 | h2
        · exact ⟨"raw two", by rw [h2]⟩
        · exact absurd h2 (List.not_mem_nil o))
  exact ⟨h.1.trans (by decide), rfl⟩

theorem chunkLe_trans (a b c : ChunkResult) (h1 : chunkLe a b = true)
    (h2 : chunkLe b c = true) : chunkLe a c = true := by
  simp only [chunkLe, decide_eq_true_eq] at *
  omega

theorem chunkLe_total (a b : ChunkResult) : (chunkLe a b || chunkLe b a) = true := by
  simp only [chunkLe, Bool.or_eq_true, decide_eq_true_eq]
  omega

theorem sortResults_sorted (rs : List ChunkResult) :
    List.Pairwise (fun a b => chunkLe a b = true) (sortResults rs) :=
  List.sorted_mergeSort chunkLe_trans chunkLe_total rs

theorem sortResults_perm (rs : List ChunkResult) : List.Perm (sortResults rs) rs :=
  List.mergeSort_perm rs chunkLe

theorem eq_of_perm_of_sortedByIndex {l₁ l₂ : List ChunkResult}
    (hp : List.Perm l₁ l₂)
    (hs₁ : List.Pairwise (fun a b => chunkLe a b = true) l₁)
    (hs₂ : List.Pairwise (fun a b => chunkLe a b = true) l₂)
    (hn : (l₁.map ChunkResult.index).Nodup) : l₁ = l₂ := by
  induction l₁ generalizing l₂ with
  | nil => exact (List.Perm.eq_nil hp.symm).symm
  | cons a t ih =>
    cases l₂ with
    | nil => exact absurd (List.Perm.eq_nil hp) (by simp)
    | cons b t₂ =>
      have haIn : a ∈ b :: t₂ := hp.subset (List.mem_cons_self a t)
      have hbIn : b ∈ a :: t := hp.symm.subset (List.mem_cons_self b t₂)
      have hle1 : a.index ≤ b.index := by
        rcases List.mem_cons.mp hbIn with h | h
        · rw [h]
        · have := List.rel_of_pairwise_cons hs₁ h
          simpa [chunkLe] using this
      have hle2 : b.index ≤ a.index := by
        rcases List.mem_cons.mp haIn with h | h
        · rw [h]
        · have := List.rel_of_pairwise_cons hs₂ h
          simpa [chunkLe] using this
      have heq : a.index = b.index := le_antisymm hle1 hle2
      have hab : a = b := by
        rcases List.mem_cons.mp haIn with h | h
        · exact h
        · exfalso
          have hn₂ : ((b :: t₂).map ChunkResult.index).Nodup :=
            (hp.map ChunkResult.index).nodup hn
          have hnotin : b.index ∉ t₂.map ChunkResult.index := by
            rw [List.map_cons, List.nodup_cons] at hn₂
            exact hn₂.1
          exact hnotin (heq ▸ List.mem_map_of_mem ChunkResult.index h)
      subst hab
      have hp' := hp.cons_inv
      have hs₁' := (List.pairwise_cons.mp hs₁).2
      have hs₂' := (List.pairwise_cons.mp hs₂).2
      have hn' : (t.map ChunkResult.index).Nodup := by
        rw [List.map_cons, List.nodup_cons] at hn
        exact hn.2
      exact congrArg (List.cons a) (ih hp' hs₁' hs₂' hn')

/-- Claim C1: result assembly is invariant under permutation of completion
order when the chunk indices are distinct: the assembled output (final text
and rendered subtitles) is identical for every input order; moreover the
final text is the text fields joined with a single space in ascending index
order, the sort output is index-sorted and a permutation of its input. -/
theorem assemble_perm_invariant (needSrt : Bool) (rs₁ rs₂ : List ChunkResult)
    (hperm : List.Perm rs₁ rs₂)
    (hnodup : (rs₁.map ChunkResult.index).Nodup) :
    assemble needSrt rs₁ = assemble needSrt rs₂ ∧
    (assemble needSrt rs₁).text =
      String.intercalate " " ((sortResults rs₁).map ChunkResult.text) ∧
    List.Pairwise (fun a b => a.index ≤ b.index) (sortResults rs₁) ∧
    List.Perm (sortResults rs₁) rs₁ := by
  have hsorteq : sortResults rs₁ = sortResults rs₂ := by
    apply eq_of_perm_of_sortedByIndex
    · exact (sortResults_perm rs₁).trans (hperm.trans (sortResults_perm rs₂).symm)
    · exact sortResults_sorted rs₁
    · exact sortResults_sorted rs₂
    · exact ((sortResults_perm rs₁).map ChunkResult.index).symm.nodup hnodup
  refine ⟨?_, rfl, ?_, sortResults_perm rs₁⟩
  · unfold assemble
    rw [hsorteq]
  · exact (sortResults_sorted rs₁).imp (fun h => by simpa [chunkLe] using h)

/-- Witness for C1: two chunk results fed in the two possible orders give the
same assembled output. -/
theorem assemble_perm_invariant_witness :
    assemble true
        [{ index := 1, text := "b", srtEntries := none },
         { index := 0, text := "a", srtEntries := none }] =
      assemble true
        [{ index := 0, text := "a", srtEntries := none },
         { index := 1, text := "b", srtEntries := none }] ∧
    (assemble true
        [{ index := 1, text := "b", srtEntries := none },
         { index := 0, text := "a", srtEntries := none }]).text =
      String.intercalate " "
        ((sortResults
            [{ index := 1, text := "b", srtEntries := none },
             { index := 0, text := "a", srtEntries := none }]).map ChunkResult.text) ∧
    List.Pairwise (fun a b => a.index ≤ b.index)
      (sortResults
        [{ index := 1, text := "b", srtEntries := none },
         { index := 0, text := "a", srtEntries := none }]) ∧
    List.Perm
      (sortResults
        [{ index := 1, text := "b", srtEntries := none },
         { index := 0, text := "a", srtEntries := none }])
      [{ index := 1, text := "b", srtEntries := none },
       { index := 0, text := "a", srtEntries := none }] :=
  assemble_perm_invariant true
    [{ index := 1, text := "b", srtEntries := none },
     { index := 0, text := "a", srtEntries := none }]
    [{ index := 0, text := "a", srtEntries := none },
     { index := 1, text := "b", srtEntries := none }]
    (List.Perm.swap
      ({ index := 0, text := "a", srtEntries := none } : ChunkResult)
      ({ index := 1, text := "b", srtEntries := none } : ChunkResult) [])
    (by decide)

/-- The entries in traversal order with indices rewritten to count up from g,
the specification of the renumbering loop. -/
def renumberFrom : List SrtEntry → Int → List SrtEntry
  | [], _ => []
  | e :: rest, g => { e with index := g } :: renumberFrom rest (g + 1)

theorem foldl_pushRenumbered (es : List SrtEntry) (acc : List SrtEntry) (g : Int) :
    es.foldl pushRenumbered (acc, g) = (acc ++ renumberFrom es g, g + es.length) := by
  induction es generalizing acc g with
  | nil => simp [renumberFrom]
  | cons e rest ih =>
    rw [List.foldl_cons]
    show rest.foldl pushRenumbered (acc ++ [{ e with index := g }], g + 1) = _
    rw [ih]
    refine Prod.ext ?_ ?_
    · simp [renumberFrom, List.append_assoc]
    · simp
      omega

theorem renumberFrom_append (es₁ es₂ : List SrtEntry) (g : Int) :
    renumberFrom (es₁ ++ es₂) g =
      renumberFrom es₁ g ++ renumberFrom es₂ (g + es₁.length) := by
  induction es₁ generalizing g with
  | nil => simp [renumberFrom]
  | cons e rest ih =>
    have h1 : renumberFrom ((e :: rest) ++ es₂) g =
        { e with index := g } :: renumberFrom (rest ++ es₂) (g + 1) := rfl
    have h2 : renumberFrom (e :: rest) g =
        { e with index := g } :: renumberFrom rest (g + 1) := rfl
    rw [h1, ih, h2, List.cons_append, List.length_cons]
    rw [show (g : Int) + 1 + (rest.length : Int) = g + ((rest.length + 1 : Nat) : Int) by
      push_cast
      ring]

theorem renumberEntries_eq (rs : List ChunkResult) :
    renumberEntries rs = renumberFrom ((rs.map chunkEntriesOf).flatten) 1 := by
  suffices h : ∀ acc g,
      rs.foldl (fun st r => (chunkEntriesOf r).foldl pushRenumbered st) (acc, g) =
        (acc ++ renumberFrom ((rs.map chunkEntriesOf).flatten) g,
         g + ((rs.map chunkEntriesOf).flatten).length) by
    unfold renumberEntries
    rw [h [] 1]
    simp
  induction rs with
  | nil => intro acc g; simp [renumberFrom]
  | cons r rest ih =>
    intro acc g
    rw [List.foldl_cons, foldl_pushRenumbered, ih]
    refine Prod.ext ?_ ?_
    · simp [renumberFrom_append, List.append_assoc]
    · simp
      omega

theorem renumberFrom_map_index (es : List SrtEntry) (g : Int) :
    (renumberFrom es g).map SrtEntry.index =
      (List.range es.length).map (fun i : Nat => g + (i : Int)) := by
  induction es generalizing g with
  | nil => rfl
  | cons e rest ih =>
    have h1 : renumberFrom (e :: rest) g =
        { e with index := g } :: renumberFrom rest (g + 1) := rfl
    rw [h1, List.map_cons, ih, List.length_cons, List.range_succ_eq_map, List.map_cons,
      List.map_map]
    refine congrArg₂ List.cons (by simp) ?_
    refine List.map_congr_left fun i hi => ?_
    simp only [Function.comp_apply]
    push_cast
    ring

/-- An arbitrary rewrite of the local entry indices of every chunk result,
leaving all other data unchanged. -/
def relabelEntry (f : Int → Int) (e : SrtEntry) : SrtEntry := { e with index := f e.index }

/-- Apply relabelEntry to every entry of every chunk result. -/
def relabelResults (f : Int → Int) (rs : List ChunkResult) : List ChunkResult :=
  rs.map fun r =>
    { r with srtEntries := Option.map (fun es => es.map (relabelEntry f)) r.srtEntries }

theorem renumberFrom_relabel (f : Int → Int) (es : List SrtEntry) (g : Int) :
    renumberFrom (es.map (relabelEntry f)) g = renumberFrom es g := by
  induction es generalizing g with
  | nil => rfl
  | cons e rest ih => simp [renumberFrom, relabelEntry, ih]

theorem flatten_relabel (f : Int → Int) (rs : List ChunkResult) :
    ((relabelResults f rs).map chunkEntriesOf).flatten =
      ((rs.map chunkEntriesOf).flatten).map (relabelEntry f) := by
  induction rs with
  | nil => rfl
  | cons r rest ih =>
    cases hres : r.srtEntries with
    | none => simp [relabelResults, chunkEntriesOf, hres, ih, relabelResults] at *
              exact ih
    | some es => simp [relabelResults, chunkEntriesOf, hres] at *
                 rw [ih]

/-- The total segment count across all chunk results. -/
def totalSegments (rs : List ChunkResult) : Nat := ((rs.map chunkEntriesOf).flatten).length

/-- Claim C4: the emitted subtitle sequence numbers are exactly 1..M in order
with no gaps, where M is the total segment count across all chunks; they are
independent of each chunk's own local numbering (any relabeling of the input
indices yields the same output), and in assembly the renumbering is applied
to the results sorted by chunk index. -/
theorem subtitle_renumbering_global (rs : List ChunkResult) :
    (renumberEntries rs).map SrtEntry.index =
      (List.range (totalSegments rs)).map (fun i : Nat => (1 : Int) + (i : Int)) ∧
    (∀ f : Int → Int, renumberEntries (relabelResults f rs) = renumberEntries rs) ∧
    (assemble true rs).srt = some (entriesToSrtString (renumberEntries (sortResults rs))) := by
  refine ⟨?_, ?_, rfl⟩
  · rw [renumberEntries_eq, renumberFrom_map_index]
    rfl
  · intro f
    rw [renumberEntries_eq, renumberEntries_eq, flatten_relabel, renumberFrom_relabel]

theorem mem_buildPlan {T d : ℚ} {c : ChunkDescriptor} :
    c ∈ buildPlan T d ↔ ∃ i : Nat, i < (totalChunksOf T d).toNat ∧
      c = { index := i, startOffsetSeconds := (i : ℚ) * d, durationSeconds := d } := by
  unfold buildPlan
  constructor
  · intro h
    obtain ⟨i, hi, heq⟩ := List.mem_map.mp h
    exact ⟨i, List.mem_range.mp hi, heq.symm⟩
  · rintro ⟨i, hi, rfl⟩
    exact List.mem_map.mpr ⟨i, List.mem_range.mpr hi, rfl⟩

theorem buildPlan_start_lt {T d : ℚ} (hd : 0 < d) {j : Nat}
    (hj : j < (totalChunksOf T d).toNat) : (j : ℚ) * d < T := by
  have hjZ : (j : Int) < totalChunksOf T d := Int.lt_toNat.mp hj
  have h1 : (j : ℚ) ≤ ((totalChunksOf T d : Int) : ℚ) - 1 := by
    have h : (j : Int) ≤ totalChunksOf T d - 1 := by omega
    exact_mod_cast h
  have h2 : ((totalChunksOf T d : Int) : ℚ) - 1 < T / d := by
    have h := Int.ceil_lt_add_one (T / d)
    unfold totalChunksOf
    linarith
  have h3 : (j : ℚ) < T / d := lt_of_le_of_lt h1 h2
  exact (lt_div_iff₀ hd).mp h3

/-- Claim C2: for positive totalDuration T and chunkDuration d, the plan has
exactly ceil(T/d) chunks with indices 0..N-1 in order, chunk i starting at
offset i*d with requested length d; the effective time ranges are
contiguous, non-overlapping and exactly cover the interval from 0 to T, with
only the final chunk possibly shorter than d. -/
theorem chunk_plan_correct (T d : ℚ) (hT : 0 < T) (hd : 0 < d) :
    0 < totalChunksOf T d ∧
    (buildPlan T d).length = (totalChunksOf T d).toNat ∧
    (buildPlan T d).map ChunkDescriptor.index = List.range (buildPlan T d).length ∧
    (∀ c ∈ buildPlan T d, c.startOffsetSeconds = (c.index : ℚ) * d ∧ c.durationSeconds = d) ∧
    (∀ x : ℚ, (0 ≤ x ∧ x < T) ↔
      ∃ c ∈ buildPlan T d, c.startOffsetSeconds ≤ x ∧ x < chunkEnd T c) ∧
    (∀ c₁ ∈ buildPlan T d, ∀ c₂ ∈ buildPlan T d, c₁.index < c₂.index →
      chunkEnd T c₁ ≤ c₂.startOffsetSeconds) ∧
    (∀ c ∈ buildPlan T d, c.index + 1 < (buildPlan T d).length →
      chunkEnd T c = c.startOffsetSeconds + d) ∧
    (∀ c ∈ buildPlan T d, c.index + 1 = (buildPlan T d).length → chunkEnd T c = T) := by
  have hN : 0 < totalChunksOf T d := by
    unfold totalChunksOf
    exact Int.lt_ceil.mpr (by exact_mod_cast div_pos hT hd)
  have hlen : (buildPlan T d).length = (totalChunksOf T d).toNat := by
    unfold buildPlan
    simp
  refine ⟨hN, hlen, ?_, ?_, ?_, ?_, ?_, ?_⟩
  · rw [hlen]
    unfold buildPlan
    rw [List.map_map]
    have hco : (ChunkDescriptor.index ∘ fun i : Nat =>
        ({ index := i, startOffsetSeconds := (i : ℚ) * d, durationSeconds := d } :
          ChunkDescriptor)) = id := rfl
    rw [hco, List.map_id]
  · intro c hc
    obtain ⟨i, hi, rfl⟩ := mem_buildPlan.mp hc
    exact ⟨rfl, rfl⟩
  · intro x
    constructor
    · rintro ⟨hx0, hxT⟩
      have hq0 : (0 : ℚ) ≤ x / d := div_nonneg hx0 hd.le
      have hfl0 : 0 ≤ ⌊x / d⌋ := Int.le_floor.mpr (by exact_mod_cast hq0)
      have hiZ : ((⌊x / d⌋.toNat : Int)) = ⌊x / d⌋ := Int.toNat_of_nonneg hfl0
      have hiQ : ((⌊x / d⌋.toNat : Nat) : ℚ) = ((⌊x / d⌋ : Int) : ℚ) := by exact_mod_cast hiZ
      have hilt : ⌊x / d⌋.toNat < (totalChunksOf T d).toNat := by
        have hdivlt : x / d < T / d := by gcongr
        have hceil : ⌊x / d⌋ < ⌈T / d⌉ := by
          have ha : ((⌊x / d⌋ : Int) : ℚ) ≤ x / d := Int.floor_le _
          have hb : T / d ≤ ((⌈T / d⌉ : Int) : ℚ) := Int.le_ceil _
          exact_mod_cast lt_of_le_of_lt ha (lt_of_lt_of_le hdivlt hb)
        unfold totalChunksOf
        omega
      refine ⟨⟨⌊x / d⌋.toNat, ((⌊x / d⌋.toNat : Nat) : ℚ) * d, d⟩,
        mem_buildPlan.mpr ⟨⌊x / d⌋.toNat, hilt, rfl⟩, ?_, ?_⟩
      · show ((⌊x / d⌋.toNat : Nat) : ℚ) * d ≤ x
        rw [hiQ]
        have h1 : ((⌊x / d⌋ : Int) : ℚ) ≤ x / d := Int.floor_le _
        have h2 : ((⌊x / d⌋ : Int) : ℚ) * d ≤ x / d * d := mul_le_mul_of_nonneg_right h1 hd.le
        rw [div_mul_cancel₀ x (ne_of_gt hd)] at h2
        exact h2
      · show x < chunkEnd T _
        unfold chunkEnd
        apply lt_min
        · show x < ((⌊x / d⌋.toNat : Nat) : ℚ) * d + d
          rw [hiQ]
          have h1 : x / d < ((⌊x / d⌋ : Int) : ℚ) + 1 := Int.lt_floor_add_one _
          have h2 : x < (((⌊x / d⌋ : Int) : ℚ) + 1) * d := (div_lt_iff₀ hd).mp h1
          rw [add_mul, one_mul] at h2
          exact h2
        · exact hxT
    · rintro ⟨c, hc, hx1, hx2⟩
      obtain ⟨i, hi, rfl⟩ := mem_buildPlan.mp hc
      have hge : (0 : ℚ) ≤ (i : ℚ) * d := mul_nonneg (by positivity) hd.le
      exact ⟨le_trans hge hx1, lt_of_lt_of_le hx2 (min_le_right _ _)⟩
  · intro c₁ hc₁ c₂ hc₂ hij
    obtain ⟨i, hi, rfl⟩ := mem_buildPlan.mp hc₁
    obtain ⟨j, hj, rfl⟩ := mem_buildPlan.mp hc₂
    have h1 : chunkEnd T
        { index := i, startOffsetSeconds := (i : ℚ) * d, durationSeconds := d } ≤
        (i : ℚ) * d + d := min_le_left _ _
    have hij' : (i : ℚ) + 1 ≤ (j : ℚ) := by exact_mod_cast hij
    have h2 : ((i : ℚ) + 1) * d ≤ (j : ℚ) * d := mul_le_mul_of_nonneg_right hij' hd.le
    rw [add_mul, one_mul] at h2
    exact le_trans h1 h2
  · intro c hc hlt
    obtain ⟨i, hi, rfl⟩ := mem_buildPlan.mp hc
    rw [hlen] at hlt
    have hlt2 : i + 1 < (totalChunksOf T d).toNat := hlt
    unfold chunkEnd
    show min ((i : ℚ) * d + d) T = (i : ℚ) * d + d
    apply min_eq_left
    have h := buildPlan_start_lt hd hlt2
    push_cast at h
    rw [add_mul, one_mul] at h
    exact le_of_lt h
  · intro c hc hfin
    obtain ⟨i, hi, rfl⟩ := mem_buildPlan.mp hc
    rw [hlen] at hfin
    have hfin2 : i + 1 = (totalChunksOf T d).toNat := hfin
    unfold chunkEnd
    show min ((i : ℚ) * d + d) T = T
    apply min_eq_right
    have hiN : ((i : Int) + 1) = totalChunksOf T d := by omega
    have h1 : T / d ≤ ((⌈T / d⌉ : Int) : ℚ) := Int.le_ceil _
    have h2 : ((⌈T / d⌉ : Int) : ℚ) = (i : ℚ) + 1 := by
      have := hiN.symm
      unfold totalChunksOf at this
      exact_mod_cast this
    have h3 : T ≤ ((i : ℚ) + 1) * d := (div_le_iff₀ hd).mp (by linarith)
    rw [add_mul, one_mul] at h3
    exact h3

unseal Rat.mul Rat.add Rat.sub Rat.inv in
/-- Witness for C2 at totalDuration 650, chunkDuration 300: three chunks. -/
theorem chunk_plan_correct_witness :
    (0 : ℚ) < 650 ∧ (0 : ℚ) < 300 ∧
    totalChunksOf (650 : ℚ) 300 = 3 ∧
    (buildPlan (650 : ℚ) 300).length = (totalChunksOf (650 : ℚ) 300).toNat ∧
    (buildPlan (650 : ℚ) 300).map ChunkDescriptor.index =
      List.range (buildPlan (650 : ℚ) 300).length := by
  refine ⟨by norm_num, by norm_num, by decide, ?_, ?_⟩
  · exact (chunk_plan_correct 650 300 (by norm_num) (by norm_num)).2.1
  · exact (chunk_plan_correct 650 300 (by norm_num) (by norm_num)).2.2.1
